import Mathlib

/-!
Verification development for the repo-tools structured-edit parser and applier
(`src/repo_tools/modules/xml_parser.py`).

Texts are modelled as `List Char`.  Python floats (difflib similarity scores)
are modelled as exact rationals `ℚ`; difflib's `ratio()` is `2*M/T` for integer
`M`, `T`, so the threshold comparisons used by the code are faithfully
represented by the corresponding rational comparisons.  Filesystem state is an
association list from full path to file content; Python file-level exceptions
(which the code catches and converts to `False`) do not arise in this model.
Loops that consume at least one character per iteration are implemented with an
explicit fuel argument equal to the input length (always sufficient).
-/

set_option maxRecDepth 400000

namespace RepoTools

/-! ### Character classes

`isPySpace` is Python's whitespace class (used by `str.strip`, `str.isspace`
and the regex class backslash-s on unicode strings).  `isLineBreak` is the set
of line boundaries used by `str.splitlines`. -/

def isPySpace (c : Char) : Bool :=
  let n := c.toNat
  decide (0x09 ≤ n ∧ n ≤ 0x0D) || decide (0x1C ≤ n ∧ n ≤ 0x1F) ||
  decide (n = 0x20) || decide (n = 0x85) || decide (n = 0xA0) ||
  decide (n = 0x1680) || decide (0x2000 ≤ n ∧ n ≤ 0x200A) ||
  decide (n = 0x2028) || decide (n = 0x2029) || decide (n = 0x202F) ||
  decide (n = 0x205F) || decide (n = 0x3000)

def isLineBreak (c : Char) : Bool :=
  let n := c.toNat
  decide (n = 0x0A) || decide (n = 0x0B) || decide (n = 0x0C) ||
  decide (n = 0x0D) || decide (0x1C ≤ n ∧ n ≤ 0x1E) || decide (n = 0x85) ||
  decide (n = 0x2028) || decide (n = 0x2029)

/-! ### `str.splitlines`

Splits at every line-break character, treating CR LF as a single boundary, and
produces no trailing empty line for a terminal break (and `[]` for `""`). -/

def splitLinesAux : List Char → List Char → List (List Char)
  | [], cur => if cur = [] then [] else [cur.reverse]
  | '\r' :: '\n' :: rest, cur => cur.reverse :: splitLinesAux rest []
  | c :: rest, cur =>
    if isLineBreak c then cur.reverse :: splitLinesAux rest []
    else splitLinesAux rest (c :: cur)

def pySplitlines (s : List Char) : List (List Char) :=
  splitLinesAux s []

/-! ### Whitespace collapsing and stripping

`collapseWs` is `re.sub(r'\s+', ' ', text)`: every maximal whitespace run
becomes a single space.  `collapseSkip` is the in-run state. -/

mutual

def collapseWs : List Char → List Char
  | [] => []
  | c :: rest => if isPySpace c then ' ' :: collapseSkip rest else c :: collapseWs rest

def collapseSkip : List Char → List Char
  | [] => []
  | c :: rest => if isPySpace c then collapseSkip rest else c :: collapseWs rest

end

def pyLStrip (s : List Char) : List Char := s.dropWhile isPySpace

def pyRStrip (s : List Char) : List Char := (s.reverse.dropWhile isPySpace).reverse

def pyStrip (s : List Char) : List Char := pyRStrip (pyLStrip s)

/-- `normalize_whitespace` (xml_parser.py lines 222-247).  With
`preserve_structure = False` it collapses all whitespace runs to single spaces
and strips the ends; with `True` it strips and collapses each line separately,
then joins with LF. -/
def normalize_whitespace (text : List Char) (preserveStructure : Bool) : List Char :=
  if preserveStructure = false then
    pyStrip (collapseWs text)
  else
    List.intercalate ['\n'] ((pySplitlines text).map (fun line => collapseWs (pyStrip line)))

/-- `normalize_line_endings` (lines 249-252): `text.replace('\r\n', '\n')`. -/
def normalize_line_endings : List Char → List Char
  | '\r' :: '\n' :: rest => '\n' :: normalize_line_endings rest
  | c :: rest => c :: normalize_line_endings rest
  | [] => []

/-! ### difflib.SequenceMatcher with `isjunk = None`

The module always builds `difflib.SequenceMatcher(None, a, b)`, so the proper
junk set `bjunk` is empty; `b2j` still drops "popular" elements of `b`
(autojunk) when `len(b) >= 200`.  `ratio()` is `2*M/T` where `M` is the total
size of the matching blocks and `T = len(a) + len(b)` (`1.0` when `T = 0`).
Scores are represented as exact rationals. -/

variable {α : Type*} [DecidableEq α] [Inhabited α]

/-- Indices of `x` in `b`, with autojunk: for `len(b) ≥ 200`, elements
occurring more than `len(b) // 100 + 1` times are dropped from the index. -/
def b2j (b : List α) (x : α) : List Nat :=
  let occ := (List.range b.length).filter (fun j => decide (b.getD j default = x))
  if 200 ≤ b.length ∧ b.length / 100 + 1 < occ.length then [] else occ

def lookupJ2 (l : List (Nat × Nat)) (j : Nat) : Nat :=
  match l.find? (fun p => p.1 == j) with
  | some p => p.2
  | none => 0

/-- One step of the inner `for j in b2j[a[i]]` loop of `find_longest_match`:
the accumulator carries `newj2len` and the best triple, while `old` is the
`j2len` dictionary from the previous row.  `k = j2len.get(j-1, 0) + 1`
(for `j = 0` Python reads key `-1`, absent, so `k = 1`). -/
def flmInnerStep (i : Nat) (old : List (Nat × Nat))
    (acc : List (Nat × Nat) × Nat × Nat × Nat) (j : Nat) :
    List (Nat × Nat) × Nat × Nat × Nat :=
  let k := if j = 0 then 1 else lookupJ2 old (j - 1) + 1
  let best := if acc.2.2.2 < k then (i + 1 - k, j + 1 - k, k) else acc.2
  ((j, k) :: acc.1, best)

/-- One step of the outer `for i in range(alo, ahi)` loop. -/
def flmOuterStep (a b : List α) (blo bhi : Nat)
    (st : List (Nat × Nat) × Nat × Nat × Nat) (i : Nat) :
    List (Nat × Nat) × Nat × Nat × Nat :=
  let js := (b2j b (a.getD i default)).filter (fun j => decide (blo ≤ j) && decide (j < bhi))
  js.foldl (flmInnerStep i st.1) ([], st.2)

def flmDP (a b : List α) (alo ahi blo bhi : Nat) : Nat × Nat × Nat :=
  ((List.range' alo (ahi - alo)).foldl (flmOuterStep a b blo bhi) ([], alo, blo, 0)).2

/-- The `while besti > alo and bestj > blo and a[besti-1] == b[bestj-1]` loop,
with fuel; fuel `besti` always suffices (each pass decrements `besti`). -/
def extendLeft (a b : List α) (alo blo : Nat) : Nat → Nat × Nat × Nat → Nat × Nat × Nat
  | 0, st => st
  | fuel + 1, (bi, bj, bs) =>
    if alo < bi ∧ blo < bj ∧ a.getD (bi - 1) default = b.getD (bj - 1) default then
      extendLeft a b alo blo fuel (bi - 1, bj - 1, bs + 1)
    else (bi, bj, bs)

/-- The matching `while besti+bestsize < ahi and ... == ...: bestsize += 1`
loop; fuel `ahi` always suffices. -/
def extendRight (a b : List α) (ahi bhi : Nat) : Nat → Nat × Nat × Nat → Nat × Nat × Nat
  | 0, st => st
  | fuel + 1, (bi, bj, bs) =>
    if bi + bs < ahi ∧ bj + bs < bhi ∧ a.getD (bi + bs) default = b.getD (bj + bs) default then
      extendRight a b ahi bhi fuel (bi, bj, bs + 1)
    else (bi, bj, bs)

/-- `SequenceMatcher.find_longest_match` on `a[alo:ahi]`, `b[blo:bhi]`.
Since `bjunk` is empty here, the two junk-extension `while` loops of difflib
never fire and only the plain equality extensions remain. -/
def findLongestMatch (a b : List α) (alo ahi blo bhi : Nat) : Nat × Nat × Nat :=
  let s0 := flmDP a b alo ahi blo bhi
  let s1 := extendLeft a b alo blo s0.1 s0
  extendRight a b ahi bhi ahi s1

/-- Total size of matching blocks (`get_matching_blocks` queue recursion; its
final sort-and-merge step does not change the total size).  Each recursive
call is on a strictly shorter `a`-interval, so fuel `a.length + 1` suffices. -/
def matchingSizeAux (a b : List α) : Nat → Nat → Nat → Nat → Nat → Nat
  | 0, _, _, _, _ => 0
  | fuel + 1, alo, ahi, blo, bhi =>
    let t := findLongestMatch a b alo ahi blo bhi
    if t.2.2 = 0 then 0
    else t.2.2 + matchingSizeAux a b fuel alo t.1 blo t.2.1 +
      matchingSizeAux a b fuel (t.1 + t.2.2) ahi (t.2.1 + t.2.2) bhi

def matchingSize (a b : List α) : Nat :=
  matchingSizeAux a b (a.length + 1) 0 a.length 0 b.length

/-- `SequenceMatcher.ratio()`: `2.0 * M / T`, and `1.0` when `T = 0`. -/
def simScore (a b : List α) : ℚ :=
  let t := a.length + b.length
  if t = 0 then 1 else 2 * (matchingSize a b : ℚ) / t

/-! ### The fuzzy matcher `find_closest_match` (lines 1204-1324) -/

/-- Python's substring test `needle in hay`. -/
def containsSub (needle hay : List Char) : Bool :=
  (List.range (hay.length + 1)).any (fun i => needle.isPrefixOf (hay.drop i))

/-- The sliding-window loop (lines 1239-1251): score every window of
`pattern_len` consecutive content lines against the pattern lines, tracking
the first strictly-best `(start, end)` range (`-1` sentinel as `none`). -/
def slidingBest (patternLines contentLines : List (List Char)) :
    Option (Nat × Nat) × ℚ :=
  let pLen := patternLines.length
  let is :=
    if pLen ≤ contentLines.length then List.range (contentLines.length - pLen + 1) else []
  is.foldl (fun acc i =>
    let window := (contentLines.drop i).take pLen
    let score := simScore patternLines window
    if acc.2 < score then (some (i, i + pLen), score) else acc) (none, 0)

/-- The chunking scan (lines 1270-1278): overlapping 100-char chunks starting
every 50 chars, keeping the first highest-scoring chunk (Python `max`). -/
def chunkBest (searchP fileC : List Char) : Option (List Char × ℚ) :=
  let starts := (List.range ((fileC.length + 49) / 50)).map (fun n => n * 50)
  (starts.map (fun i =>
      let chunk := (fileC.drop i).take 100
      (chunk, simScore searchP chunk))).foldl
    (fun acc c =>
      match acc with
      | none => some c
      | some b => if b.2 < c.2 then some c else some b) none

/-- Per-search-line scan (lines 1292-1302): best original line with score
strictly above both the running best and `0.8`; blank lines skipped. -/
def bestLineMatch (searchLine : List Char) (origLines : List (List Char)) :
    Option (List Char) × ℚ :=
  origLines.foldl (fun b ol =>
    if pyStrip ol = [] then b
    else
      let score := simScore searchLine ol
      if b.2 < score ∧ (8 : ℚ) / 10 < score then (some ol, score) else b) (none, 0)

/-- The `line_matches` accumulation (lines 1287-1305). -/
def lineMatchesOf (searchLines origLines : List (List Char)) :
    List (List Char × List Char × ℚ) :=
  searchLines.foldl (fun acc sl =>
    if pyStrip sl = [] then acc
    else
      match bestLineMatch sl origLines with
      | (some m, score) => acc ++ [(sl, m, score)]
      | (none, _) => acc) []

def natListMin : List Nat → Nat
  | [] => 0
  | x :: xs => xs.foldl Nat.min x

def natListMax : List Nat → Nat
  | [] => 0
  | x :: xs => xs.foldl Nat.max x

/-- Last-resort line-by-line stage of `find_closest_match` (lines 1282-1324):
needs matches for at least 70% of the non-blank search lines, then returns the
padded index span with the mean per-line score; otherwise `(None, 0.0)`. -/
def lineStage (searchP fileC : List Char) : Option (List Char) × ℚ :=
  let originalLines := pySplitlines fileC
  let searchLines := pySplitlines searchP
  let lineMatches := lineMatchesOf searchLines originalLines
  let nonblank := (searchLines.filter (fun l => !(pyStrip l).isEmpty)).length
  if lineMatches ≠ [] ∧ (7 : ℚ) / 10 * nonblank ≤ (lineMatches.length : ℚ) then
    let avgScore := (lineMatches.map (fun m => m.2.2)).sum / (lineMatches.length : ℚ)
    let matchedLines := lineMatches.map (fun m => m.2.1)
    let matchedIndices := matchedLines.filterMap (fun l => originalLines.findIdx? (fun ol => ol == l))
    if matchedIndices ≠ [] then
      let startIdx := natListMin matchedIndices - 2
      let endIdx := min originalLines.length (natListMax matchedIndices + 3)
      (some (List.intercalate ['\n'] ((originalLines.drop startIdx).take (endIdx - startIdx))),
        avgScore)
    else (none, 0)
  else (none, 0)

/-- Stages 3-4 of `find_closest_match` (lines 1266-1324): whole-text score,
then chunk scan, then line reconstruction.  (The chunk list is empty only for
an empty file, which cannot reach this point with `direct > 0.7`.) -/
def findClosestFallback (searchP fileC : List Char) : Option (List Char) × ℚ :=
  let directScore := simScore searchP fileC
  let afterChunk :=
    if (7 : ℚ) / 10 < directScore then
      match chunkBest searchP fileC with
      | some bc => if (7 : ℚ) / 10 < bc.2 then some bc else none
      | none => none
    else none
  match afterChunk with
  | some bc => (some bc.1, bc.2)
  | none => lineStage searchP fileC

/-- `find_closest_match` (lines 1204-1324): exact substring short-circuit,
then normalized sliding window (padded by 2 context lines on each side of the
best window when its score exceeds 0.7), then the fallback stages. -/
def find_closest_match (searchPattern fileContent : List Char) :
    Option (List Char) × ℚ :=
  if containsSub searchPattern fileContent then (some searchPattern, 1)
  else
    let searchP := normalize_line_endings searchPattern
    let fileC := normalize_line_endings fileContent
    let normSearch := normalize_whitespace searchP true
    let normContent := normalize_whitespace fileC true
    let patternLines := pySplitlines normSearch
    let contentLines := pySplitlines normContent
    match slidingBest patternLines contentLines with
    | (some se, bestScore) =>
      if (7 : ℚ) / 10 < bestScore then
        let originalLines := pySplitlines fileC
        let es := se.1 - 2
        let ee := min originalLines.length (se.2 + 2)
        (some (List.intercalate ['\n'] ((originalLines.drop es).take (ee - es))), bestScore)
      else findClosestFallback searchP fileC
    | (none, _) => findClosestFallback searchP fileC

/-! ### Filesystem model and the change applier

The filesystem is an association list from full path to file content (first
match wins); directories are implicit.  Python file-level `IOError`s, which the
applier converts to `False`, do not arise in this model. -/

/-- `FileChange` (xml_parser.py lines 21-104), after constructor
normalization. -/
structure FileChange where
  operation : List Char
  path : List Char
  code : Option (List Char)
  search : Option (List Char)
  summary : Option (List Char)
deriving DecidableEq, Repr

abbrev FS := List (List Char × List Char)

def fsLookup (fs : FS) (p : List Char) : Option (List Char) :=
  match fs.find? (fun e => e.1 == p) with
  | some e => some e.2
  | none => none

def fsWrite (fs : FS) (p c : List Char) : FS := (p, c) :: fs

def fsErase (fs : FS) (p : List Char) : FS := fs.filter (fun e => !(e.1 == p))

/-- Two-argument POSIX `os.path.join`. -/
def joinPath (root rel : List Char) : List Char :=
  if rel.head? = some '/' then rel
  else if root = [] then rel
  else if root.getLast? = some '/' then root ++ rel
  else root ++ '/' :: rel

/-- `str.replace` scan for a non-empty needle; each pass consumes at least one
character, so fuel `s.length` suffices. -/
def replaceAllAux (old new : List Char) : Nat → List Char → List Char
  | 0, s => s
  | _ + 1, [] => []
  | fuel + 1, c :: rest =>
    if old.isPrefixOf (c :: rest) then
      new ++ replaceAllAux old new fuel ((c :: rest).drop old.length)
    else c :: replaceAllAux old new fuel rest

/-- Python `s.replace(old, new)`: non-overlapping left-to-right substitution;
for an empty `old`, `new` is inserted before every character and at the end. -/
def replaceAll (s old new : List Char) : List Char :=
  if old = [] then new ++ s.foldr (fun c acc => c :: (new ++ acc)) []
  else replaceAllAux old new s.length s

/-- Python `s.count(needle)`: non-overlapping occurrence count. -/
def countOccAux (needle : List Char) : Nat → List Char → Nat
  | 0, _ => 0
  | _ + 1, [] => 0
  | fuel + 1, c :: rest =>
    if needle.isPrefixOf (c :: rest) then
      1 + countOccAux needle fuel ((c :: rest).drop needle.length)
    else countOccAux needle fuel rest

def countOccurrences (s needle : List Char) : Nat := countOccAux needle s.length s

/-- `create_file` (lines 2222-2248): creates parent directories, then writes
`content or ""` — a null content is coerced to the empty string — and
returns `True`. -/
def create_file (fs : FS) (repoPath relativePath : List Char)
    (content : Option (List Char)) : FS × Bool :=
  let fullPath := joinPath repoPath relativePath
  (fsWrite fs fullPath (content.getD []), true)

/-- `update_file` (lines 2250-2276): identical body to `create_file`. -/
def update_file (fs : FS) (repoPath relativePath : List Char)
    (content : Option (List Char)) : FS × Bool :=
  let fullPath := joinPath repoPath relativePath
  (fsWrite fs fullPath (content.getD []), true)

/-- `delete_file` (lines 2278-2304): if the file does not exist it logs
"File does not exist" and returns `False`; otherwise removes it and returns
`True`. -/
def delete_file (fs : FS) (repoPath relativePath : List Char) : FS × Bool :=
  let fullPath := joinPath repoPath relativePath
  match fsLookup fs fullPath with
  | none => (fs, false)
  | some _ => (fsErase fs fullPath, true)

/-- `modify_file` (lines 2306-2363).  A `None` search pattern makes
`search_pattern not in current_content` raise `TypeError`, caught by the
function's own except-block, which returns `False`.  When the pattern is not a
verbatim substring, the fuzzy match is used whenever `matched_text` is truthy
(non-empty) and the score is at least 0.8, and the replacement is a plain
`str.replace` of every occurrence of `matched_text`; otherwise the result is a
no-op `True` under `lenient_search` and `False` without it. -/
def modify_file (fs : FS) (repoPath relativePath : List Char)
    (searchPattern replacement : Option (List Char)) (lenientSearch : Bool) :
    FS × Bool :=
  let fullPath := joinPath repoPath relativePath
  match fsLookup fs fullPath with
  | none => (fs, false)
  | some currentContent =>
    match searchPattern with
    | none => (fs, false)
    | some sp =>
      if containsSub sp currentContent then
        (fsWrite fs fullPath (replaceAll currentContent sp (replacement.getD [])), true)
      else
        match find_closest_match sp currentContent with
        | (some matchedText, score) =>
          if matchedText ≠ [] ∧ (8 : ℚ) / 10 ≤ score then
            (fsWrite fs fullPath
              (replaceAll currentContent matchedText (replacement.getD [])), true)
          else if lenientSearch then (fs, true) else (fs, false)
        | (none, _) => if lenientSearch then (fs, true) else (fs, false)

/-- Dispatch on `change.operation` (apply_changes lines 1550-1564).  Known
operations leave `error_message = None` even on failure; an unknown operation
yields `success = False` with an error message. -/
def applyOne (fs : FS) (repoPath : List Char) (lenientSearch : Bool)
    (c : FileChange) : FS × Bool × Option (List Char) :=
  if c.operation = ("CREATE".toList) then
    let r := create_file fs repoPath c.path c.code
    (r.1, r.2, none)
  else if c.operation = ("UPDATE".toList) then
    let r := update_file fs repoPath c.path c.code
    (r.1, r.2, none)
  else if c.operation = ("DELETE".toList) then
    let r := delete_file fs repoPath c.path
    (r.1, r.2, none)
  else if c.operation = ("MODIFY".toList) then
    let r := modify_file fs repoPath c.path c.search c.code lenientSearch
    (r.1, r.2, none)
  else (fs, false, some (("Unknown operation: ".toList) ++ c.operation))

/-- The apply loop of `apply_changes` (lines 1536-1573) over a list of
`FileChange` objects: every change is processed (the `isinstance` filter is
vacuous for typed input) and appends exactly one `(change, success, error)`
result; exceptions inside one change are caught per-change. -/
def applyChangesList (fs : FS) (repoPath : List Char) (lenientSearch : Bool) :
    List FileChange → FS × List (FileChange × Bool × Option (List Char))
  | [] => (fs, [])
  | c :: cs =>
    let r := applyOne fs repoPath lenientSearch c
    let rest := applyChangesList r.1 repoPath lenientSearch cs
    (rest.1, (c, r.2.1, r.2.2) :: rest.2)

/-! ### `parse_xml_string` skeleton (lines 254-473)

The pre-strategy text processing is embedded in full.  The four parsing
strategies (`parse_code_changes_format`, `parse_changed_files_format`, the
generic minidom scan, and `parse_with_regex`) are abstracted as parameters:
each maps the processed text either to an exception (`Except.error`, caught by
the per-strategy `except` block and treated as zero changes) or to a list of
raw items, which `ensure_valid_file_changes` then filters.  The claims about
`parse_xml_string` concern only this dispatch-and-failure skeleton. -/

/-- First index at which `needle` starts in `hay` (Python `str.find` when
non-negative). -/
def firstOccIdx (needle hay : List Char) : Option Nat :=
  (List.range (hay.length + 1)).find? (fun i => needle.isPrefixOf (hay.drop i))

def pyEndsWith (s suffix : List Char) : Bool :=
  suffix.reverse.isPrefixOf s.reverse

/-- Does the regex `<file\s+path=["']` match at the head of `t`? -/
def fileTagAt (t : List Char) : Bool :=
  ("<file".toList).isPrefixOf t &&
    (let r := t.drop 5
     let ws := r.takeWhile isPySpace
     (!ws.isEmpty) && ("path=".toList).isPrefixOf (r.drop ws.length) &&
       (decide ((r.drop (ws.length + 5)).head? = some '"') ||
        decide ((r.drop (ws.length + 5)).head? = some '\'')))

/-- All positions of `re.finditer(r'<file\s+path=["\']', s)` (such matches
cannot overlap, so these are exactly the match starts). -/
def fileTagPositions (s : List Char) : List Nat :=
  (List.range s.length).filter (fun i => fileTagAt (s.drop i))

/-- After the fence and optional `xml`, the regex needs a greedy whitespace
run ending in a newline, then the lazily-shortest body up to a closing
triple-backtick fence.  Backtracking to an earlier newline inside the
whitespace run can never reveal a new closing fence, so the greedy choice is
final. -/
def mdAttemptBody (r : List Char) : Option (List Char) :=
  let run := r.takeWhile isPySpace
  let tailLen := (run.reverse.takeWhile (fun c => !(c == '\n'))).length
  if tailLen = run.length then none
  else
    let body := r.drop (run.length - tailLen)
    match firstOccIdx ("```".toList) body with
    | some k => some (body.take k)
    | none => none

/-- Matching the fenced-block regex at one start position: the optional `xml`
is tried greedily first, falling back to the bare fence. -/
def mdMatchAt (s : List Char) : Option (List Char) :=
  if ("```".toList).isPrefixOf s then
    let r := s.drop 3
    if ("xml".toList).isPrefixOf r then
      match mdAttemptBody (r.drop 3) with
      | some g => some g
      | none => mdAttemptBody r
    else mdAttemptBody r
  else none

/-- `extract_xml_from_markdown` (lines 106-129): leave text already starting
with `<` alone; otherwise return the body of the leftmost fenced code block,
or the input unchanged when there is none. -/
def extract_xml_from_markdown (text : List Char) : List Char :=
  if (pyLStrip text).head? = some '<' then text
  else
    match (List.range text.length).findSome? (fun i => mdMatchAt (text.drop i)) with
    | some inner => inner
    | none => text

/-- `re.sub(opener .*? closer, '', s)` for literal delimiters: repeatedly drop
the span from the leftmost `opener` to the first `closer` after it.  Each
removal consumes at least one character, so fuel `s.length` suffices. -/
def removeBetweenAux (opener closer : List Char) : Nat → List Char → List Char
  | 0, s => s
  | fuel + 1, s =>
    match firstOccIdx opener s with
    | none => s
    | some i =>
      let afterOpen := s.drop (i + opener.length)
      match firstOccIdx closer afterOpen with
      | none => s
      | some j =>
        s.take i ++ removeBetweenAux opener closer fuel (afterOpen.drop (j + closer.length))

def removeBetween (s opener closer : List Char) : List Char :=
  removeBetweenAux opener closer s.length s

/-- Decides the tail `.*</[^>]+>\s*$` of the root-element regex on the text
following the opening tag (scanning the reversed text). -/
def rootCloseCheck (r : List Char) : Bool :=
  let v := r.reverse.dropWhile isPySpace
  match v with
  | '>' :: v2 =>
    (List.range v2.length).any (fun k =>
      decide (1 ≤ k) && ((v2.take k).all (fun c => !(c == '>'))) &&
      decide (v2.getD k ' ' = '/') && decide (v2.getD (k + 1) ' ' = '<'))
  | _ => false

/-- Decides `re.match(r'^\s*<[^>]+>.*</[^>]+>\s*$', s, re.DOTALL)`: a possible
match must open at the first non-space character and close its first tag at
the first `>`. -/
def matchesRootPattern (s : List Char) : Bool :=
  let t := s.dropWhile isPySpace
  match t with
  | '<' :: rest =>
    let a := rest.takeWhile (fun c => !(c == '>'))
    (!a.isEmpty) && decide (a.length < rest.length) && rootCloseCheck (rest.drop (a.length + 1))
  | _ => false

def isTagStartChar (c : Char) : Bool := c.isAlpha

def isTagNameChar (c : Char) : Bool :=
  c.isAlpha || c.isDigit || (c == '_') || (c == ':') || (c == '-')

/-- `re.findall(r'<([a-zA-Z][a-zA-Z0-9_:-]*)[^>]*>', s)`: tag names of
non-overlapping matches, left to right; a candidate `<` without a following
`>` fails and scanning resumes one character later. -/
def findOpenTagsAux : Nat → List Char → List (List Char)
  | 0, _ => []
  | _ + 1, [] => []
  | fuel + 1, '<' :: rest =>
    match rest.head? with
    | some c =>
      if isTagStartChar c then
        let name := rest.takeWhile isTagNameChar
        let after := rest.drop name.length
        let toGt := after.takeWhile (fun d => !(d == '>'))
        if toGt.length < after.length then
          name :: findOpenTagsAux fuel (after.drop (toGt.length + 1))
        else findOpenTagsAux fuel rest
      else findOpenTagsAux fuel rest
    | none => []
  | fuel + 1, _ :: rest => findOpenTagsAux fuel rest

def findOpenTags (s : List Char) : List (List Char) := findOpenTagsAux s.length s

/-- `re.findall(r'</([a-zA-Z][a-zA-Z0-9_:-]*)>', s)`: here the `>` must
follow the name immediately. -/
def findCloseTagsAux : Nat → List Char → List (List Char)
  | 0, _ => []
  | _ + 1, [] => []
  | fuel + 1, '<' :: '/' :: rest =>
    match rest.head? with
    | some c =>
      if isTagStartChar c then
        let name := rest.takeWhile isTagNameChar
        if (rest.drop name.length).head? = some '>' then
          name :: findCloseTagsAux fuel (rest.drop (name.length + 1))
        else findCloseTagsAux fuel ('/' :: rest)
      else findCloseTagsAux fuel ('/' :: rest)
    | none => []
  | fuel + 1, _ :: rest => findCloseTagsAux fuel rest

def findCloseTags (s : List Char) : List (List Char) := findCloseTagsAux s.length s

/-- The distinct `raise XMLParserError` sites reachable from
`parse_xml_string` (the message text is not modelled). -/
inductive ParseErr where
  | emptyInput
  | instructionsWithoutFiles
  | missingAngleBrackets
  | malformedAngleStructure
  | allStrategiesFailed
deriving DecidableEq, Repr

def userSwiftMarker : List Char :=
  ("<file path=\"Models/User.swift\" action=\"modify\">".toList)

/-- The pre-strategy processing of `parse_xml_string` (lines 273-372):
emptiness check, formatting-instructions stripping, first-file-tag slicing,
markdown unwrapping, angle-bracket checks, strip, `<Plan>` and comment
removal (`validate_xml_structure` only logs and is a no-op here), root
wrapping, and non-breaking-space replacement. -/
def preprocessXml (s0 : List Char) : Except ParseErr (List Char) := do
  if s0.all isPySpace then throw ParseErr.emptyInput
  let positions := fileTagPositions s0
  let s1 ←
    if containsSub ("<xml_formatting_instructions>".toList) s0 then
      if positions ≠ [] then
        match positions.reverse.find?
            (fun p => containsSub userSwiftMarker ((s0.drop p).take 100)) with
        | some p => pure (s0.drop p)
        | none => pure s0
      else throw ParseErr.instructionsWithoutFiles
    else if ¬ ("<file".toList).isPrefixOf (pyLStrip s0) ∧ positions ≠ [] then
      pure (s0.drop (positions.headD 0))
    else pure s0
  let s2 := if ¬ (pyLStrip s1).head? = some '<' then extract_xml_from_markdown s1 else s1
  if ¬ s2.contains '<' then throw ParseErr.missingAngleBrackets
  let s3 := pyStrip s2
  let s4 := removeBetween s3 ("<Plan>".toList) ("</Plan>".toList)
  let s5 := removeBetween s4 ("<!--".toList) ("-->".toList)
  let s6 := pyStrip s5
  if ¬ (s6.head? = some '<' ∧ s6.contains '>') then throw ParseErr.malformedAngleStructure
  let s7 :=
    if matchesRootPattern s6 then s6
    else if ("<file".toList).isPrefixOf (s6.dropWhile isPySpace) ∧
        pyEndsWith (pyRStrip s6) ("</file>".toList) then
      ("<root>".toList) ++ s6 ++ ("</root>".toList)
    else
      let openTags := findOpenTags s6
      let closeTags := findCloseTags s6
      if openTags ≠ [] ∧ closeTags ≠ [] ∧ openTags.head? = closeTags.getLast? then s6
      else ("<root>".toList) ++ s6 ++ ("</root>".toList)
  pure (s7.map (fun c => if c.toNat = 0xA0 then ' ' else c))

/-- Items a strategy may produce: `FileChange` objects, dicts (with the
`get`-with-fallback chains already resolved to the five logical fields),
strings, or anything else. -/
inductive RawItem where
  | fc (c : FileChange)
  | dictItem (operation path code search summary : Option (List Char))
  | strItem (s : List Char)
  | otherItem
deriving DecidableEq, Repr

def pyUpper (s : List Char) : List Char := s.map Char.toUpper

/-- The `FileChange.__init__` normalization (lines 41-71): a `None` operation
defaults to UPDATE, and the operation is upper-cased. -/
def mkFileChange (operation : Option (List Char)) (path : List Char)
    (code search summary : Option (List Char)) : FileChange :=
  { operation := pyUpper (operation.getD ("UPDATE".toList)),
    path := path, code := code, search := search, summary := summary }

/-- `ensure_valid_file_changes` (lines 475-519): keep `FileChange`s, convert
dicts whose operation and path are truthy, drop strings and anything else. -/
def ensure_valid_file_changes (items : List RawItem) : List FileChange :=
  items.filterMap fun it =>
    match it with
    | RawItem.fc c => some c
    | RawItem.dictItem op path code sr summary =>
      match op, path with
      | some o, some p =>
        if o ≠ [] ∧ p ≠ [] then some (mkFileChange (some o) p code sr summary) else none
      | _, _ => none
    | RawItem.strItem _ => none
    | RawItem.otherItem => none

/-- The four parsing strategies of `parse_xml_string`, abstracted. -/
structure Strategies where
  codeChangesFormat : List Char → Except (List Char) (List RawItem)
  changedFilesFormat : List Char → Except (List Char) (List RawItem)
  genericMinidom : List Char → Except (List Char) (List RawItem)
  regexScrape : List Char → Except (List Char) (List RawItem)

/-- One strategy attempt: an exception is caught and counts as zero changes;
a non-empty item list is filtered by `ensure_valid_file_changes`. -/
def tryStrategy (strat : List Char → Except (List Char) (List RawItem))
    (s : List Char) : List FileChange :=
  match strat s with
  | Except.error _ => []
  | Except.ok items => if items = [] then [] else ensure_valid_file_changes items

/-- `parse_xml_string` (lines 254-473): preprocess, then try the four
strategies in order, the first non-empty valid result winning; raise the
aggregated error when all four produce nothing. -/
def parse_xml_string (S : Strategies) (input : List Char) :
    Except ParseErr (List FileChange) := do
  let s ← preprocessXml input
  let r1 := tryStrategy S.codeChangesFormat s
  let all :=
    if r1 ≠ [] then r1
    else
      let r2 := tryStrategy S.changedFilesFormat s
      if r2 ≠ [] then r2
      else
        let r3 := tryStrategy S.genericMinidom s
        if r3 ≠ [] then r3 else tryStrategy S.regexScrape s
  if all ≠ [] then pure all else throw ParseErr.allStrategiesFailed

/-- `apply_changes` accepts either a list of `FileChange` objects or a raw
string (backward compatibility). -/
inductive ChangesInput where
  | changeList (cs : List FileChange)
  | rawText (s : List Char)

/-- `apply_changes` (lines 1509-1573): for raw string input, a parse failure
is caught and yields the empty result list; otherwise every change is applied
in order. -/
def apply_changes (S : Strategies) (input : ChangesInput) (fs : FS)
    (repoPath : List Char) (lenientSearch : Bool) :
    FS × List (FileChange × Bool × Option (List Char)) :=
  match input with
  | ChangesInput.changeList cs => applyChangesList fs repoPath lenientSearch cs
  | ChangesInput.rawText s =>
    match parse_xml_string S s with
    | Except.error _ => (fs, [])
    | Except.ok cs => applyChangesList fs repoPath lenientSearch cs

/-! ### Concrete fixtures used by counterexamples and witnesses -/

/-- A file with two identical five-line blocks (`aaa..xxx`), each inside the
same two-line context, separated by `sep1/sep2`. -/
def c1content : List Char :=
  (("h1\nh2\naaa\nbbb\nccc\nddd\nxxx\nt1\nt2\nsep1\nsep2\n" ++
    "h1\nh2\naaa\nbbb\nccc\nddd\nxxx\nt1\nt2").toList)

/-- A search pattern differing from each block only in its last line. -/
def c1search : List Char := ("aaa\nbbb\nccc\nddd\neee".toList)

def c1block : List Char := ("aaa\nbbb\nccc\nddd\nxxx".toList)

/-- The span `find_closest_match` returns for `c1search` in `c1content`
(best window padded by two context lines on each side). -/
def c1matched : List Char := ("h1\nh2\naaa\nbbb\nccc\nddd\nxxx\nt1".toList)

def c1path : List Char := joinPath ("r".toList) ("f.txt".toList)

def c1fs : FS := [(c1path, c1content)]

/-- Strategies that always return an empty item list (used to exercise the
parse-failure paths). -/
def emptyStrategies : Strategies :=
  ⟨fun _ => Except.ok [], fun _ => Except.ok [], fun _ => Except.ok [],
   fun _ => Except.ok []⟩

def c4Change : FileChange :=
  ⟨("CREATE".toList), ("a.txt".toList), some [], none, none⟩

/-- Strategies whose first format yields one valid change. -/
def c4Strategies : Strategies :=
  ⟨fun _ => Except.ok [RawItem.fc c4Change], fun _ => Except.ok [],
   fun _ => Except.ok [], fun _ => Except.ok []⟩

/-! ### Proof-support predicates -/

/-- Invariant of the `j2len` dictionary rows: keys are at least `blo` and
values are bounded by the key-relative and row-relative run lengths. -/
def J2Inv (blo bd : Nat) (l : List (Nat × Nat)) : Prop :=
  ∀ p ∈ l, blo ≤ p.1 ∧ p.2 ≤ p.1 + 1 - blo ∧ p.2 ≤ bd

/-- Invariant of the best triple `(besti, bestj, bestsize)` of
`find_longest_match`: either still the initial sentinel, or a genuine block
inside the ranges. -/
def BestInv (alo ahi blo bhi : Nat) (t : Nat × Nat × Nat) : Prop :=
  t = (alo, blo, 0) ∨
    (alo ≤ t.1 ∧ blo ≤ t.2.1 ∧ 1 ≤ t.2.2 ∧ t.1 + t.2.2 ≤ ahi ∧ t.2.1 + t.2.2 ≤ bhi)

/-- Normal form of `collapseWs`: every whitespace character is a plain space
and no two spaces are adjacent. -/
def WsOk (l : List Char) : Prop :=
  (∀ c ∈ l, isPySpace c = true → c = ' ') ∧
    l.Chain' (fun x y => ¬(x = ' ' ∧ y = ' '))

/-! ### Theorems -/

theorem foldl_inv {β σ : Type*} (f : σ → β → σ) (P : σ → Prop) :
    ∀ (l : List β) (init : σ), P init → (∀ s x, x ∈ l → P s → P (f s x)) →
      P (l.foldl f init)
  | [], _, h, _ => h
  | x :: xs, init, h, hstep =>
    foldl_inv f P xs (f init x) (hstep init x (List.mem_cons_self x xs) h)
      (fun s y hy hs => hstep s y (List.mem_cons_of_mem x hy) hs)

theorem containsSub_iff_sub (n h : List Char) : containsSub n h = true ↔ n <:+: h := by
  unfold containsSub
  simp only [List.any_eq_true, List.mem_range]
  constructor
  · rintro ⟨i, _, hp⟩
    have hp' : n <+: h.drop i := by
      rw [← List.isPrefixOf_iff_prefix]; exact hp
    obtain ⟨t, ht⟩ := hp'
    exact ⟨h.take i, t, by rw [List.append_assoc, ht, List.take_append_drop]⟩
  · rintro ⟨s, t, hst⟩
    refine ⟨s.length, ?_, ?_⟩
    · have : s.length ≤ h.length := by
        rw [← hst]; simp [List.length_append]
      omega
    · have : h.drop s.length = n ++ t := by
        rw [← hst, List.append_assoc, List.drop_left]
      rw [this, List.isPrefixOf_iff_prefix]
      exact ⟨t, rfl⟩

/-- Claim C5: for any file content and any verbatim substring of it, the fuzzy
matcher returns exactly that substring with similarity exactly 1, by the exact
substring short-circuit of `find_closest_match`. -/
theorem c5_exact_substring (sp fc : List Char) (h : sp <:+: fc) :
    find_closest_match sp fc = (some sp, 1) := by
  unfold find_closest_match
  rw [if_pos ((containsSub_iff_sub sp fc).mpr h)]

/-- Witness for C5 at a concrete input. -/
theorem c5_exact_substring_witness :
    find_closest_match ("hello".toList) ("say hello world".toList) =
      (some ("hello".toList), 1) :=
  c5_exact_substring ("hello".toList) ("say hello world".toList)
    ⟨("say ".toList), (" world".toList), by decide⟩

/-- Claim C3: `apply_changes` on a list of changes produces exactly one result
per input change, carrying them in input order (hence one failure never aborts
the batch, and the result count always equals the input count). -/
theorem c3_batch_cardinality (S : Strategies) (fs : FS) (repo : List Char)
    (lenient : Bool) (cs : List FileChange) :
    ((apply_changes S (ChangesInput.changeList cs) fs repo lenient).2.map
        (fun r => r.1) = cs) ∧
    (apply_changes S (ChangesInput.changeList cs) fs repo lenient).2.length = cs.length := by
  have key : ∀ (cs : List FileChange) (fs : FS),
      (applyChangesList fs repo lenient cs).2.map (fun r => r.1) = cs := by
    intro cs
    induction cs with
    | nil => intro fs; rfl
    | cons c cs ih => intro fs; simp [applyChangesList, ih]
  constructor
  · exact key cs fs
  · have := congrArg List.length (key cs fs)
    simpa using this

/-- Claim C2 is false: deleting a nonexistent file returns `False` (the code
logs a warning and fails), so the second of two identical DELETEs fails. -/
theorem c2_counterexample :
    (delete_file ([] : FS) ("r".toList) ("a.txt".toList)).2 = false ∧
    (delete_file [(joinPath ("r".toList) ("a.txt".toList), ("x".toList))]
      ("r".toList) ("a.txt".toList)).2 = true ∧
    (delete_file
      (delete_file [(joinPath ("r".toList) ("a.txt".toList), ("x".toList))]
        ("r".toList) ("a.txt".toList)).1
      ("r".toList) ("a.txt".toList)).2 = false := by decide

theorem fsLookup_fsErase (fs : FS) (p : List Char) : fsLookup (fsErase fs p) p = none := by
  unfold fsLookup fsErase
  have : (fs.filter (fun e => !(e.1 == p))).find? (fun e => e.1 == p) = none := by
    rw [List.find?_eq_none]
    intro x hx
    have := (List.mem_filter.mp hx).2
    simpa using this
  rw [this]

/-- Amended C2: a DELETE of a nonexistent target fails (`success = False`,
non-raising), so of two identical DELETEs of an existing file the first
succeeds and the second fails. -/
theorem c2_amended (fs : FS) (repo rel : List Char) :
    (fsLookup fs (joinPath repo rel) = none → delete_file fs repo rel = (fs, false)) ∧
    (∀ c, fsLookup fs (joinPath repo rel) = some c →
      (delete_file fs repo rel).2 = true ∧
      (delete_file (delete_file fs repo rel).1 repo rel).2 = false) := by
  constructor
  · intro h
    simp only [delete_file, h]
  · intro c h
    simp only [delete_file, h, fsLookup_fsErase]
    constructor <;> trivial

/-- Witness for the amended C2 at concrete inputs. -/
theorem c2_amended_witness :
    delete_file ([] : FS) ("r".toList) ("a.txt".toList) = ([], false) ∧
    (delete_file [(joinPath ("r".toList) ("a.txt".toList), ("x".toList))]
      ("r".toList) ("a.txt".toList)).2 = true :=
  ⟨(c2_amended [] ("r".toList) ("a.txt".toList)).1 (by decide),
   ((c2_amended [(joinPath ("r".toList) ("a.txt".toList), ("x".toList))]
      ("r".toList) ("a.txt".toList)).2 ("x".toList) (by decide)).1⟩

/-- Claim C6 is false: CREATE with a null content succeeds — `content or ""`
coerces `None` to the empty string — writing an empty file, instead of
failing. -/
theorem c6_counterexample :
    (create_file ([] : FS) ("r".toList) ("a.txt".toList) none).2 = true ∧
    fsLookup (create_file ([] : FS) ("r".toList) ("a.txt".toList) none).1
      (joinPath ("r".toList) ("a.txt".toList)) = some [] := by decide

/-- Amended C6: for CREATE and UPDATE a null content is treated exactly like
an empty-string content: both succeed and write an empty file. -/
theorem c6_amended (fs : FS) (repo rel : List Char) :
    create_file fs repo rel none = (fsWrite fs (joinPath repo rel) [], true) ∧
    create_file fs repo rel (some []) = (fsWrite fs (joinPath repo rel) [], true) ∧
    update_file fs repo rel none = (fsWrite fs (joinPath repo rel) [], true) ∧
    update_file fs repo rel (some []) = (fsWrite fs (joinPath repo rel) [], true) := by
  refine ⟨rfl, rfl, rfl, rfl⟩

/-- Claim C7: with `lenient_search = True`, a MODIFY whose search pattern is
not found (no verbatim occurrence and no fuzzy match that is both non-empty
and scored at least 0.8) reports success and leaves the filesystem unchanged. -/
theorem c7_lenient_noop (fs : FS) (repo rel sp : List Char)
    (repl : Option (List Char)) (content : List Char)
    (hfile : fsLookup fs (joinPath repo rel) = some content)
    (hni : containsSub sp content = false)
    (hnf : (find_closest_match sp content).1 = none ∨
           (find_closest_match sp content).1 = some [] ∨
           (find_closest_match sp content).2 < (8 : ℚ) / 10) :
    modify_file fs repo rel (some sp) repl true = (fs, true) := by
  rcases hfcm : find_closest_match sp content with ⟨m, score⟩
  rw [hfcm] at hnf
  rcases m with _ | m
  · simp [modify_file, hfile, hni, hfcm]
  · have hcond : ¬(m ≠ [] ∧ (8 : ℚ) / 10 ≤ score) := by
      rcases hnf with h | h | h
      · exact absurd h (by simp)
      · simp only [Option.some.injEq] at h
        subst h
        simp
      · simp only at h
        rintro ⟨-, hge⟩
        exact absurd h (not_lt.mpr hge)
    simp [modify_file, hfile, hni, hfcm, hcond]

/-- Witness for C7 at a concrete input. -/
theorem c7_lenient_noop_witness :
    modify_file [(joinPath ("r".toList) ("a.txt".toList), ("hello world".toList))]
      ("r".toList) ("a.txt".toList) (some ("zzz".toList)) (some ("y".toList)) true =
      ([(joinPath ("r".toList) ("a.txt".toList), ("hello world".toList))], true) :=
  c7_lenient_noop _ ("r".toList) ("a.txt".toList) ("zzz".toList) (some ("y".toList))
    ("hello world".toList) (by decide) (by decide)
    (Or.inl (by with_unfolding_all decide))

theorem lookupJ2_le {blo bd : Nat} {l : List (Nat × Nat)} (h : J2Inv blo bd l) (j : Nat) :
    lookupJ2 l j ≤ j + 1 - blo ∧ lookupJ2 l j ≤ bd := by
  unfold lookupJ2
  cases hf : l.find? (fun p => p.1 == j) with
  | none => simp
  | some p =>
    have hm := List.mem_of_find?_eq_some hf
    have hpj : p.1 = j := by simpa using List.find?_some hf
    obtain ⟨_, h2, h3⟩ := h p hm
    rw [hpj] at h2
    exact ⟨h2, h3⟩

theorem flmInnerStep_inv {alo ahi blo bhi i : Nat} {old : List (Nat × Nat)}
    (hi1 : alo ≤ i) (hi2 : i < ahi) (hold : J2Inv blo (i - alo) old)
    {acc : List (Nat × Nat) × Nat × Nat × Nat} {j : Nat}
    (hj1 : blo ≤ j) (hj2 : j < bhi)
    (hacc : J2Inv blo (i + 1 - alo) acc.1 ∧ BestInv alo ahi blo bhi acc.2) :
    J2Inv blo (i + 1 - alo) (flmInnerStep i old acc j).1 ∧
      BestInv alo ahi blo bhi (flmInnerStep i old acc j).2 := by
  obtain ⟨hJ, hB⟩ := hacc
  have hkb : (if j = 0 then 1 else lookupJ2 old (j - 1) + 1) ≤ j + 1 - blo ∧
      (if j = 0 then 1 else lookupJ2 old (j - 1) + 1) ≤ i + 1 - alo ∧
      1 ≤ (if j = 0 then 1 else lookupJ2 old (j - 1) + 1) := by
    have := lookupJ2_le hold (j - 1)
    split <;> omega
  set kv := (if j = 0 then 1 else lookupJ2 old (j - 1) + 1) with hkv
  have heq : flmInnerStep i old acc j =
      ((j, kv) :: acc.1, if acc.2.2.2 < kv then (i + 1 - kv, j + 1 - kv, kv) else acc.2) := rfl
  rw [heq]
  constructor
  · intro p hp
    rcases List.mem_cons.mp hp with h | h
    · subst h
      exact ⟨hj1, hkb.1, hkb.2.1⟩
    · exact hJ p h
  · by_cases hlt : acc.2.2.2 < kv
    · rw [if_pos hlt]
      unfold BestInv
      right
      dsimp only
      omega
    · rw [if_neg hlt]
      exact hB

theorem flmOuterStep_inv (a b : List α) {alo ahi blo bhi i : Nat}
    {st : List (Nat × Nat) × Nat × Nat × Nat}
    (hi1 : alo ≤ i) (hi2 : i < ahi)
    (hst : J2Inv blo (i - alo) st.1 ∧ BestInv alo ahi blo bhi st.2) :
    J2Inv blo (i + 1 - alo) (flmOuterStep a b blo bhi st i).1 ∧
      BestInv alo ahi blo bhi (flmOuterStep a b blo bhi st i).2 := by
  unfold flmOuterStep
  refine foldl_inv _ (fun (acc : List (Nat × Nat) × Nat × Nat × Nat) =>
    J2Inv blo (i + 1 - alo) acc.1 ∧ BestInv alo ahi blo bhi acc.2) _ _
    ⟨fun p hp => absurd hp (List.not_mem_nil p), hst.2⟩ ?_
  intro s x hx hs
  have hx' := (List.mem_filter.mp hx).2
  have hb1 : blo ≤ x := by
    have := (Bool.and_eq_true _ _ |>.mp hx').1
    simpa using this
  have hb2 : x < bhi := by
    have := (Bool.and_eq_true _ _ |>.mp hx').2
    simpa using this
  exact flmInnerStep_inv hi1 hi2 hst.1 hb1 hb2 hs

theorem flmFold_inv (a b : List α) (alo ahi blo bhi : Nat) :
    ∀ (n s : Nat) (st : List (Nat × Nat) × Nat × Nat × Nat),
      alo ≤ s → s + n ≤ ahi →
      J2Inv blo (s - alo) st.1 → BestInv alo ahi blo bhi st.2 →
      BestInv alo ahi blo bhi
        (((List.range' s n).foldl (flmOuterStep a b blo bhi) st)).2 := by
  intro n
  induction n with
  | zero =>
    intro s st _ _ _ hB
    simpa using hB
  | succ n ih =>
    intro s st hs hsn hJ hB
    rw [List.range'_succ]
    simp only [List.foldl_cons]
    have hstep := flmOuterStep_inv (a := a) (b := b) hs (by omega) ⟨hJ, hB⟩
    exact ih (s + 1) _ (by omega) (by omega) hstep.1 hstep.2

theorem flmDP_inv (a b : List α) (alo ahi blo bhi : Nat) :
    BestInv alo ahi blo bhi (flmDP a b alo ahi blo bhi) := by
  unfold flmDP
  rcases le_or_lt alo ahi with hle | hlt
  · exact flmFold_inv a b alo ahi blo bhi (ahi - alo) alo ([], alo, blo, 0)
      le_rfl (by omega) (fun p hp => absurd hp (List.not_mem_nil p)) (Or.inl rfl)
  · have h0 : ahi - alo = 0 := by omega
    rw [h0]
    exact Or.inl rfl

theorem extendLeft_inv (a b : List α) {alo ahi blo bhi : Nat} :
    ∀ (fuel : Nat) (st : Nat × Nat × Nat), BestInv alo ahi blo bhi st →
      BestInv alo ahi blo bhi (extendLeft a b alo blo fuel st) := by
  intro fuel
  induction fuel with
  | zero => intro st h; exact h
  | succ fuel ih =>
    rintro ⟨bi, bj, bs⟩ h
    show BestInv alo ahi blo bhi
      (if alo < bi ∧ blo < bj ∧ a.getD (bi - 1) default = b.getD (bj - 1) default
       then extendLeft a b alo blo fuel (bi - 1, bj - 1, bs + 1) else (bi, bj, bs))
    split
    · rename_i hcond
      apply ih
      rcases h with h | h
      · rw [Prod.mk.injEq, Prod.mk.injEq] at h
        omega
      · right
        simp only at h ⊢
        omega
    · exact h

theorem extendRight_inv (a b : List α) {alo ahi blo bhi : Nat} :
    ∀ (fuel : Nat) (st : Nat × Nat × Nat), BestInv alo ahi blo bhi st →
      BestInv alo ahi blo bhi (extendRight a b ahi bhi fuel st) := by
  intro fuel
  induction fuel with
  | zero => intro st h; exact h
  | succ fuel ih =>
    rintro ⟨bi, bj, bs⟩ h
    show BestInv alo ahi blo bhi
      (if bi + bs < ahi ∧ bj + bs < bhi ∧ a.getD (bi + bs) default = b.getD (bj + bs) default
       then extendRight a b ahi bhi fuel (bi, bj, bs + 1) else (bi, bj, bs))
    split
    · rename_i hcond
      apply ih
      rcases h with h | h
      · rw [Prod.mk.injEq, Prod.mk.injEq] at h
        right
        simp only
        omega
      · right
        simp only at h ⊢
        omega
    · exact h

theorem findLongestMatch_inv (a b : List α) (alo ahi blo bhi : Nat) :
    BestInv alo ahi blo bhi (findLongestMatch a b alo ahi blo bhi) := by
  unfold findLongestMatch
  exact extendRight_inv a b _ _ (extendLeft_inv a b _ _ (flmDP_inv a b alo ahi blo bhi))

theorem matchingSizeAux_le (a b : List α) :
    ∀ (fuel alo ahi blo bhi : Nat),
      matchingSizeAux a b fuel alo ahi blo bhi ≤ min (ahi - alo) (bhi - blo) := by
  intro fuel
  induction fuel with
  | zero =>
    intro alo ahi blo bhi
    simp [matchingSizeAux]
  | succ fuel ih =>
    intro alo ahi blo bhi
    show (let t := findLongestMatch a b alo ahi blo bhi
      if t.2.2 = 0 then 0
      else t.2.2 + matchingSizeAux a b fuel alo t.1 blo t.2.1 +
        matchingSizeAux a b fuel (t.1 + t.2.2) ahi (t.2.1 + t.2.2) bhi) ≤
      min (ahi - alo) (bhi - blo)
    simp only
    split
    · omega
    · rename_i hk
      have hinv := findLongestMatch_inv a b alo ahi blo bhi
      rcases hinv with h | h
      · rw [h] at hk
        simp at hk
      · obtain ⟨h1, h2, h3, h4, h5⟩ := h
        have hl := ih alo (findLongestMatch a b alo ahi blo bhi).1 blo
          (findLongestMatch a b alo ahi blo bhi).2.1
        have hr := ih ((findLongestMatch a b alo ahi blo bhi).1 +
            (findLongestMatch a b alo ahi blo bhi).2.2) ahi
          ((findLongestMatch a b alo ahi blo bhi).2.1 +
            (findLongestMatch a b alo ahi blo bhi).2.2) bhi
        omega

theorem matchingSize_le (a b : List α) :
    matchingSize a b ≤ min a.length b.length := by
  have := matchingSizeAux_le a b (a.length + 1) 0 a.length 0 b.length
  simpa [matchingSize] using this

theorem simScore_nonneg (a b : List α) : 0 ≤ simScore a b := by
  simp only [simScore]
  split
  · norm_num
  · positivity

theorem simScore_le_one (a b : List α) : simScore a b ≤ 1 := by
  simp only [simScore]
  split
  · exact le_rfl
  · rename_i ht
    rw [div_le_one (by exact_mod_cast Nat.pos_of_ne_zero ht)]
    have h2 : 2 * matchingSize a b ≤ a.length + b.length := by
      have := matchingSize_le a b
      omega
    exact_mod_cast h2

theorem slidingBest_bounds (p c : List (List Char)) :
    0 ≤ (slidingBest p c).2 ∧ (slidingBest p c).2 ≤ 1 := by
  unfold slidingBest
  refine foldl_inv _ (fun (acc : Option (Nat × Nat) × ℚ) => 0 ≤ acc.2 ∧ acc.2 ≤ 1) _ _
    ⟨le_rfl, by norm_num⟩ ?_
  intro s x _ hs
  simp only
  split
  · exact ⟨simScore_nonneg _ _, simScore_le_one _ _⟩
  · exact hs

theorem chunkBest_bounds (sp fc : List Char) :
    ∀ bc, chunkBest sp fc = some bc → 0 ≤ bc.2 ∧ bc.2 ≤ 1 := by
  unfold chunkBest
  refine foldl_inv _ (fun (acc : Option (List Char × ℚ)) =>
    ∀ bc, acc = some bc → 0 ≤ bc.2 ∧ bc.2 ≤ 1) _ _
    (by intro bc h; cases h) ?_
  intro s x hx hs
  have hxs : x.2 = simScore sp x.1 := by
    rcases List.mem_map.mp hx with ⟨i, _, hi⟩
    rw [← hi]
  intro bc hbc
  rcases s with _ | b
  · simp only at hbc
    cases hbc
    rw [hxs]
    exact ⟨simScore_nonneg _ _, simScore_le_one _ _⟩
  · simp only at hbc
    split at hbc
    · cases hbc
      rw [hxs]
      exact ⟨simScore_nonneg _ _, simScore_le_one _ _⟩
    · exact hs bc hbc

theorem bestLineMatch_bounds (sl : List Char) (ols : List (List Char)) :
    0 ≤ (bestLineMatch sl ols).2 ∧ (bestLineMatch sl ols).2 ≤ 1 := by
  unfold bestLineMatch
  refine foldl_inv _ (fun (acc : Option (List Char) × ℚ) => 0 ≤ acc.2 ∧ acc.2 ≤ 1) _ _
    ⟨le_rfl, by norm_num⟩ ?_
  intro s x _ hs
  simp only
  split
  · exact hs
  · split
    · exact ⟨simScore_nonneg _ _, simScore_le_one _ _⟩
    · exact hs

theorem lineMatchesOf_bounds (sls ols : List (List Char)) :
    ∀ t ∈ lineMatchesOf sls ols, 0 ≤ t.2.2 ∧ t.2.2 ≤ 1 := by
  unfold lineMatchesOf
  refine foldl_inv _ (fun (acc : List (List Char × List Char × ℚ)) =>
    ∀ t ∈ acc, 0 ≤ t.2.2 ∧ t.2.2 ≤ 1) _ _
    (by intro t ht; cases ht) ?_
  intro s x _ hs
  split
  · exact hs
  · rcases hbm : bestLineMatch x ols with ⟨om, sc⟩
    rcases om with _ | m
    · exact hs
    · intro t ht
      rcases List.mem_append.mp ht with h | h
      · exact hs t h
      · have : t = (x, m, sc) := by simpa using h
        subst this
        have := bestLineMatch_bounds x ols
        rw [hbm] at this
        exact this

theorem avg_bounds (l : List ℚ) (h : ∀ x ∈ l, 0 ≤ x ∧ x ≤ 1) (hne : l ≠ []) :
    0 ≤ l.sum / (l.length : ℚ) ∧ l.sum / (l.length : ℚ) ≤ 1 := by
  have hlen : 0 < (l.length : ℚ) := by
    exact_mod_cast List.length_pos.mpr hne
  have hsum0 : 0 ≤ l.sum := List.sum_nonneg (fun x hx => (h x hx).1)
  have hsum1 : l.sum ≤ (l.length : ℚ) := by
    have := List.sum_le_card_nsmul l 1 (fun x hx => (h x hx).2)
    simpa [nsmul_eq_mul] using this
  exact ⟨div_nonneg hsum0 (le_of_lt hlen), (div_le_one hlen).mpr hsum1⟩

theorem lineStage_bounds (sp fc : List Char) :
    (0 ≤ (lineStage sp fc).2 ∧ (lineStage sp fc).2 ≤ 1) ∧
      ((lineStage sp fc).1 = none → (lineStage sp fc).2 = 0) := by
  simp only [lineStage]
  split
  · rename_i hcond
    split
    · constructor
      · have hb : ∀ x ∈ (lineMatchesOf (pySplitlines (sp)) (pySplitlines (fc))).map
            (fun m => m.2.2), 0 ≤ x ∧ x ≤ 1 := by
          intro x hx
          rcases List.mem_map.mp hx with ⟨t, ht, rfl⟩
          exact lineMatchesOf_bounds _ _ t ht
        have hnem : (lineMatchesOf (pySplitlines (sp)) (pySplitlines (fc))).map
            (fun m => m.2.2) ≠ [] := by
          simp only [ne_eq, List.map_eq_nil_iff]
          exact hcond.1
        have := avg_bounds _ hb hnem
        simpa [List.length_map] using this
      · intro h
        cases h
    · exact ⟨⟨le_rfl, by norm_num⟩, fun _ => rfl⟩
  · exact ⟨⟨le_rfl, by norm_num⟩, fun _ => rfl⟩

theorem findClosestFallback_bounds (sp fc : List Char) :
    (0 ≤ (findClosestFallback sp fc).2 ∧ (findClosestFallback sp fc).2 ≤ 1) ∧
      ((findClosestFallback sp fc).1 = none → (findClosestFallback sp fc).2 = 0) := by
  simp only [findClosestFallback]
  split
  · rename_i bc hbc
    have hb : 0 ≤ bc.2 ∧ bc.2 ≤ 1 := by
      by_cases hd : (7 : ℚ) / 10 < simScore sp fc
      · rw [if_pos hd] at hbc
        rcases hcb : chunkBest sp fc with _ | bc'
        · rw [hcb] at hbc
          cases hbc
        · rw [hcb] at hbc
          simp only at hbc
          by_cases h7 : (7 : ℚ) / 10 < bc'.2
          · rw [if_pos h7] at hbc
            cases hbc
            exact chunkBest_bounds sp fc _ hcb
          · rw [if_neg h7] at hbc
            cases hbc
      · rw [if_neg hd] at hbc
        cases hbc
    exact ⟨hb, by intro h; cases h⟩
  · exact lineStage_bounds sp fc

/-- Claim C8: the similarity returned by the fuzzy matcher always lies in
[0, 1], and whenever `matched_text` is `None` (no stage found a candidate
above its floor) the similarity is exactly 0. -/
theorem c8_similarity_bounds (sp fc : List Char) :
    (0 ≤ (find_closest_match sp fc).2 ∧ (find_closest_match sp fc).2 ≤ 1) ∧
      ((find_closest_match sp fc).1 = none → (find_closest_match sp fc).2 = 0) := by
  unfold find_closest_match
  split
  · exact ⟨⟨by norm_num, le_rfl⟩, by intro h; cases h⟩
  · simp only
    split
    · rename_i se bestScore hsb
      split
      · refine ⟨?_, by intro h; cases h⟩
        have hbb := slidingBest_bounds
          (pySplitlines (normalize_whitespace (normalize_line_endings sp) true))
          (pySplitlines (normalize_whitespace (normalize_line_endings fc) true))
        rw [hsb] at hbb
        exact hbb
      · exact findClosestFallback_bounds _ _
    · exact findClosestFallback_bounds _ _

/-- Witness for C8 at a concrete no-match input. -/
theorem c8_similarity_bounds_witness :
    (find_closest_match ("zzz".toList) ("hello world".toList)).2 = 0 := by
  apply (c8_similarity_bounds ("zzz".toList) ("hello world".toList)).2
  with_unfolding_all decide

/-- Claim C1 is false at this input: the search pattern fuzzy-matches two
identical blocks of the file with similarity 4/5 ∈ [0.80, 0.98), yet
`modify_file` reports success — no "ambiguous match" failure and no
context-window scoring — and replaces every occurrence of the padded matched
span via `str.replace`, modifying both copies including the wrong one. -/
theorem c1_counterexample :
    countOccurrences c1content c1block = 2 ∧
    simScore (pySplitlines c1search) (pySplitlines c1block) = 4 / 5 ∧
    find_closest_match c1search c1content = (some c1matched, 4 / 5) ∧
    ((8 : ℚ) / 10 ≤ 4 / 5 ∧ (4 : ℚ) / 5 < 98 / 100) ∧
    (modify_file c1fs ("r".toList) ("f.txt".toList) (some c1search)
      (some ("REPL".toList)) false).2 = true ∧
    fsLookup (modify_file c1fs ("r".toList) ("f.txt".toList) (some c1search)
      (some ("REPL".toList)) false).1 c1path =
      some (("REPL\nt2\nsep1\nsep2\nREPL\nt2").toList) ∧
    countOccurrences (("REPL\nt2\nsep1\nsep2\nREPL\nt2").toList) c1block = 0 := by
  with_unfolding_all decide

/-- Amended C1: when the pattern is not verbatim and the fuzzy match is
non-empty with score at least 0.8, `modify_file` substitutes the replacement
for every occurrence of the matched span and reports success; no occurrence
counting, context-window scoring, or ambiguity failure takes place. -/
theorem c1_amended_replace_all (fs : FS) (repo rel sp repl content m : List Char)
    (score : ℚ)
    (hfile : fsLookup fs (joinPath repo rel) = some content)
    (hni : containsSub sp content = false)
    (hfm : find_closest_match sp content = (some m, score))
    (hm : m ≠ []) (hs : (8 : ℚ) / 10 ≤ score) :
    modify_file fs repo rel (some sp) (some repl) false =
      (fsWrite fs (joinPath repo rel) (replaceAll content m repl), true) := by
  simp only [modify_file, hfile, hni, Bool.false_eq_true, if_false, hfm]
  rw [if_pos ⟨hm, hs⟩]
  rfl

/-- Witness for the amended C1 at the two-identical-blocks fixture. -/
theorem c1_amended_replace_all_witness :
    modify_file c1fs ("r".toList) ("f.txt".toList) (some c1search)
      (some ("REPL".toList)) false =
      (fsWrite c1fs c1path (replaceAll c1content c1matched ("REPL".toList)), true) :=
  c1_amended_replace_all c1fs ("r".toList) ("f.txt".toList) c1search ("REPL".toList)
    c1content c1matched (4 / 5) (by decide) (by decide)
    (by with_unfolding_all decide) (by decide) (by with_unfolding_all decide)

theorem dropWhile_idem (p : Char → Bool) (l : List Char) :
    List.dropWhile p (List.dropWhile p l) = List.dropWhile p l := by
  induction l with
  | nil => rfl
  | cons c rest ih =>
    by_cases h : p c
    · simp [List.dropWhile_cons, h, ih]
    · simp [List.dropWhile_cons, h]

theorem pyRStrip_idem (l : List Char) : pyRStrip (pyRStrip l) = pyRStrip l := by
  unfold pyRStrip
  rw [List.reverse_reverse, dropWhile_idem]

theorem pyRStrip_front (l : List Char) : pyRStrip l <+: l := by
  unfold pyRStrip
  have h := List.dropWhile_suffix (l := l.reverse) isPySpace
  have h2 := List.reverse_prefix.mpr h
  simpa using h2

theorem pyStrip_part (l : List Char) : pyStrip l <:+: l :=
  (pyRStrip_front (pyLStrip l)).isInfix.trans (List.dropWhile_suffix isPySpace).isInfix

theorem pc_false_of_dropWhile {p : Char → Bool} :
    ∀ (x : List Char) {c : Char} {t : List Char},
      List.dropWhile p x = c :: t → p c = false := by
  intro x
  induction x with
  | nil => intro c t h; cases h
  | cons a rest ih =>
    intro c t h
    by_cases ha : p a
    · rw [List.dropWhile_cons, if_pos ha] at h
      exact ih h
    · rw [List.dropWhile_cons, if_neg ha] at h
      cases h
      simpa using ha

theorem dropWhile_eq_self_of_front {p : Char → Bool} {x m : List Char}
    (h : m <+: List.dropWhile p x) : List.dropWhile p m = m := by
  cases m with
  | nil => rfl
  | cons c m' =>
    obtain ⟨t, ht⟩ := h
    have hx : List.dropWhile p x = c :: (m' ++ t) := by
      rw [← ht]
      rfl
    have hpc : p c = false := pc_false_of_dropWhile x hx
    simp [List.dropWhile_cons, hpc]

theorem pyStrip_idem (l : List Char) : pyStrip (pyStrip l) = pyStrip l := by
  unfold pyStrip
  have h1 : pyLStrip (pyRStrip (pyLStrip l)) = pyRStrip (pyLStrip l) :=
    dropWhile_eq_self_of_front (pyRStrip_front (pyLStrip l))
  rw [h1, pyRStrip_idem]

theorem wsOk_part {l l' : List Char} (h : WsOk l) (hi : l' <:+: l) : WsOk l' :=
  ⟨fun c hc hs => h.1 c (hi.sublist.subset hc) hs, List.Chain'.infix h.2 hi⟩

theorem collapse_wsOk (l : List Char) :
    WsOk (collapseWs l) ∧
      (WsOk (collapseSkip l) ∧
        ∀ c, (collapseSkip l).head? = some c → isPySpace c = false) := by
  induction l with
  | nil =>
    refine ⟨⟨by simp [collapseWs], by simp [collapseWs]⟩,
      ⟨by simp [collapseSkip], by simp [collapseSkip]⟩, by simp [collapseSkip]⟩
  | cons c rest ih =>
    obtain ⟨ihW, ihS, ihSh⟩ := ih
    refine ⟨?_, ?_, ?_⟩
    · by_cases hc : isPySpace c
      · rw [show collapseWs (c :: rest) = ' ' :: collapseSkip rest from by
          simp [collapseWs, hc]]
        refine ⟨?_, ?_⟩
        · intro d hd hds
          rcases List.mem_cons.mp hd with rfl | hd'
          · rfl
          · exact ihS.1 d hd' hds
        · rw [List.chain'_cons']
          refine ⟨?_, ihS.2⟩
          intro y hy
          rintro ⟨-, rfl⟩
          have := ihSh ' ' hy
          simp [isPySpace] at this
      · rw [show collapseWs (c :: rest) = c :: collapseWs rest from by
          simp [collapseWs, hc]]
        refine ⟨?_, ?_⟩
        · intro d hd hds
          rcases List.mem_cons.mp hd with rfl | hd'
          · exact absurd hds (by simpa using hc)
          · exact ihW.1 d hd' hds
        · rw [List.chain'_cons']
          refine ⟨?_, ihW.2⟩
          intro y _
          rintro ⟨rfl, -⟩
          exact hc (by decide)
    · by_cases hc : isPySpace c
      · rw [show collapseSkip (c :: rest) = collapseSkip rest from by
          simp [collapseSkip, hc]]
        exact ihS
      · rw [show collapseSkip (c :: rest) = c :: collapseWs rest from by
          simp [collapseSkip, hc]]
        refine ⟨?_, ?_⟩
        · intro d hd hds
          rcases List.mem_cons.mp hd with rfl | hd'
          · exact absurd hds (by simpa using hc)
          · exact ihW.1 d hd' hds
        · rw [List.chain'_cons']
          refine ⟨?_, ihW.2⟩
          intro y _
          rintro ⟨rfl, -⟩
          exact hc (by decide)
    · by_cases hc : isPySpace c
      · rw [show collapseSkip (c :: rest) = collapseSkip rest from by
          simp [collapseSkip, hc]]
        exact ihSh
      · rw [show collapseSkip (c :: rest) = c :: collapseWs rest from by
          simp [collapseSkip, hc]]
        intro d hd
        have hdc : c = d := by simpa using hd
        subst hdc
        exact eq_false_of_ne_true (by simpa using hc)

theorem collapse_eq_self (l : List Char) :
    (WsOk l → collapseWs l = l) ∧
      (WsOk l → (∀ c, l.head? = some c → isPySpace c = false) → collapseSkip l = l) := by
  induction l with
  | nil => exact ⟨fun _ => rfl, fun _ _ => rfl⟩
  | cons c rest ih =>
    obtain ⟨ihW, ihS⟩ := ih
    have htail : WsOk (c :: rest) → WsOk rest := fun h =>
      ⟨fun d hd => h.1 d (List.mem_cons_of_mem _ hd), h.2.tail⟩
    constructor
    · intro hok
      by_cases hc : isPySpace c
      · have hcsp : c = ' ' := hok.1 c (List.mem_cons_self _ _) hc
        rw [show collapseWs (c :: rest) = ' ' :: collapseSkip rest from by
          simp [collapseWs, hc], hcsp]
        congr 1
        apply ihS (htail hok)
        intro d hd
        by_contra hds
        have hdsp : isPySpace d = true := by
          cases hb : isPySpace d
          · exact absurd hb hds
          · rfl
        have hdmem : d ∈ rest := List.mem_of_mem_head? hd
        have hd' : d = ' ' := hok.1 d (List.mem_cons_of_mem _ hdmem) hdsp
        have hch := (List.chain'_cons'.mp hok.2).1 d hd
        exact hch ⟨hcsp, hd'⟩
      · rw [show collapseWs (c :: rest) = c :: collapseWs rest from by
          simp [collapseWs, hc]]
        congr 1
        exact ihW (htail hok)
    · intro hok hhead
      have hc : isPySpace c = false := hhead c rfl
      rw [show collapseSkip (c :: rest) = c :: collapseWs rest from by
        simp [collapseSkip, hc]]
      congr 1
      exact ihW (htail hok)

/-- Claim C9 is false for `preserve_structure = True`: at `x = "a\n\n"` the
first normalization yields `"a\n"` (splitlines keeps the middle empty line),
but the second yields `"a"` (splitlines of `"a\n"` drops the terminal line
break), so the function is not idempotent. -/
theorem c9_counterexample :
    normalize_whitespace (normalize_whitespace (("a\n\n").toList) true) true ≠
      normalize_whitespace (("a\n\n").toList) true := by decide

/-- Amended C9: `normalize_whitespace` is idempotent for
`preserve_structure = False` (collapse-and-strip reaches a fixed point); for
`preserve_structure = True` idempotence fails in general because joining with
LF loses a trailing empty line on the next splitlines pass. -/
theorem c9_amended_idem_flat (x : List Char) :
    normalize_whitespace (normalize_whitespace x false) false =
      normalize_whitespace x false := by
  show pyStrip (collapseWs (pyStrip (collapseWs x))) = pyStrip (collapseWs x)
  have hok : WsOk (collapseWs x) := (collapse_wsOk x).1
  have hok' : WsOk (pyStrip (collapseWs x)) := wsOk_part hok (pyStrip_part _)
  have hco : collapseWs (pyStrip (collapseWs x)) = pyStrip (collapseWs x) :=
    (collapse_eq_self _).1 hok'
  rw [hco, pyStrip_idem]

theorem mem_of_containsSub {n h : List Char} (hc : containsSub n h = true)
    {c : Char} (hm : c ∈ n) : c ∈ h :=
  ((containsSub_iff_sub n h).mp hc).sublist.subset hm

theorem fileTagAt_angle {t : List Char} (h : fileTagAt t = true) : '<' ∈ t := by
  unfold fileTagAt at h
  have hp : (("<file").toList).isPrefixOf t = true := (Bool.and_eq_true _ _ |>.mp h).1
  have := (List.isPrefixOf_iff_prefix.mp hp).sublist.subset (by decide : '<' ∈ ("<file").toList)
  exact this

theorem mdAttemptBody_subset {r g : List Char} (h : mdAttemptBody r = some g) :
    ∀ c ∈ g, c ∈ r := by
  simp only [mdAttemptBody] at h
  split at h
  · cases h
  · split at h
    · rename_i k _
      cases h
      intro c hc
      exact (List.drop_sublist _ _).subset ((List.take_sublist _ _).subset hc)
    · cases h

theorem mdMatchAt_subset {s g : List Char} (h : mdMatchAt s = some g) :
    ∀ c ∈ g, c ∈ s := by
  simp only [mdMatchAt] at h
  split at h
  · split at h
    · rcases hb : mdAttemptBody ((s.drop 3).drop 3) with _ | g'
      · rw [hb] at h
        intro c hc
        exact (List.drop_sublist _ _).subset (mdAttemptBody_subset h c hc)
      · rw [hb] at h
        cases h
        intro c hc
        exact (List.drop_sublist _ _).subset
          ((List.drop_sublist _ _).subset (mdAttemptBody_subset hb c hc))
    · intro c hc
      exact (List.drop_sublist _ _).subset (mdAttemptBody_subset h c hc)
  · cases h

theorem extract_xml_from_markdown_subset (t : List Char) :
    ∀ c ∈ extract_xml_from_markdown t, c ∈ t := by
  unfold extract_xml_from_markdown
  split
  · exact fun c hc => hc
  · split
    · rename_i inner hfs
      obtain ⟨i, _, hmi⟩ := List.exists_of_findSome?_eq_some hfs
      intro c hc
      exact (List.drop_sublist _ _).subset (mdMatchAt_subset hmi c hc)
    · exact fun c hc => hc

theorem preprocess_no_angle (input : List Char) (h : input.contains '<' = false) :
    ∃ e, preprocessXml input = Except.error e := by
  by_cases hw : input.all isPySpace
  · refine ⟨ParseErr.emptyInput, ?_⟩
    simp only [preprocessXml, hw]
    rfl
  · have hmem : '<' ∉ input := by simpa using h
    have hins : containsSub (("<xml_formatting_instructions>").toList) input = false := by
      cases hcs : containsSub (("<xml_formatting_instructions>").toList) input
      · rfl
      · exact absurd (mem_of_containsSub hcs (by decide)) hmem
    have hpos : fileTagPositions input = [] := by
      unfold fileTagPositions
      rw [List.filter_eq_nil_iff]
      intro i _
      cases hft : fileTagAt (input.drop i)
      · simp
      · exact absurd ((List.drop_sublist _ _).subset (fileTagAt_angle hft)) hmem
    have hhead : ¬ (pyLStrip input).head? = some '<' := by
      intro hh
      have hmemls : '<' ∈ pyLStrip input := List.mem_of_mem_head? hh
      exact hmem ((List.dropWhile_suffix _).sublist.subset hmemls)
    have hnc : (extract_xml_from_markdown input).contains '<' = false := by
      cases hcc : (extract_xml_from_markdown input).contains '<'
      · rfl
      · have : '<' ∈ extract_xml_from_markdown input := by simpa using hcc
        exact absurd (extract_xml_from_markdown_subset input '<' this) hmem
    refine ⟨ParseErr.missingAngleBrackets, ?_⟩
    simp at hins hpos hhead hnc ⊢
    simp [preprocessXml, hw, hins, hpos, hhead, hnc]
    rfl

/-- Claim C10: when `apply_changes` receives a raw string that the extractor
cannot parse, it catches the parse error and returns the empty result list
(no exception, no per-change results). -/
theorem c10_unparsable_string (S : Strategies) (raw : List Char) (fs : FS)
    (repo : List Char) (lenient : Bool) (e : ParseErr)
    (h : parse_xml_string S raw = Except.error e) :
    apply_changes S (ChangesInput.rawText raw) fs repo lenient = (fs, []) := by
  simp [apply_changes, h]

/-- Witness for C10 at a concrete unparsable input. -/
theorem c10_unparsable_string_witness :
    apply_changes emptyStrategies (ChangesInput.rawText (("hello").toList)) [] (("r").toList)
      false = ([], []) :=
  c10_unparsable_string emptyStrategies (("hello").toList) [] (("r").toList) false
    ParseErr.missingAngleBrackets (by rfl)

theorem parse_xml_string_eval (S : Strategies) (input s0 : List Char)
    (hpre : preprocessXml input = Except.ok s0) :
    parse_xml_string S input =
      (let r1 := tryStrategy S.codeChangesFormat s0
       let all :=
         if r1 ≠ [] then r1
         else
           let r2 := tryStrategy S.changedFilesFormat s0
           if r2 ≠ [] then r2
           else
             let r3 := tryStrategy S.genericMinidom s0
             if r3 ≠ [] then r3 else tryStrategy S.regexScrape s0
       if all ≠ [] then Except.ok all else Except.error ParseErr.allStrategiesFailed) := by
  simp only [parse_xml_string, hpre]
  rfl

/-- Claim C4: `parse_xml_string` raises exactly when every strategy produced
zero (valid) changes on the preprocessed text; an input without any `<` always
raises; and any strategy producing at least one valid change yields a
non-empty result instead of a raise. -/
theorem c4_extract_failure_semantics (S : Strategies) (input : List Char) :
    ((∃ e, parse_xml_string S input = Except.error e) ↔
      ∀ s, preprocessXml input = Except.ok s →
        (tryStrategy S.codeChangesFormat s = [] ∧ tryStrategy S.changedFilesFormat s = [] ∧
          tryStrategy S.genericMinidom s = [] ∧ tryStrategy S.regexScrape s = [])) ∧
    (input.contains '<' = false → ∃ e, parse_xml_string S input = Except.error e) ∧
    (∀ s, preprocessXml input = Except.ok s →
      (tryStrategy S.codeChangesFormat s ≠ [] ∨ tryStrategy S.changedFilesFormat s ≠ [] ∨
        tryStrategy S.genericMinidom s ≠ [] ∨ tryStrategy S.regexScrape s ≠ []) →
      ∃ cs, parse_xml_string S input = Except.ok cs ∧ cs ≠ []) := by
  have hang : input.contains '<' = false → ∃ e, parse_xml_string S input = Except.error e := by
    intro hlt
    obtain ⟨e, he⟩ := preprocess_no_angle input hlt
    refine ⟨e, ?_⟩
    simp only [parse_xml_string, he]
    rfl
  rcases hpre : preprocessXml input with e0 | s0
  · refine ⟨?_, hang, ?_⟩
    · constructor
      · intro _ s hs
        cases hs
      · intro _
        refine ⟨e0, ?_⟩
        simp only [parse_xml_string, hpre]
        rfl
    · intro s hs
      cases hs
  · have heval := parse_xml_string_eval S input s0 hpre
    by_cases h1 : tryStrategy S.codeChangesFormat s0 = []
    · by_cases h2 : tryStrategy S.changedFilesFormat s0 = []
      · by_cases h3 : tryStrategy S.genericMinidom s0 = []
        · by_cases h4 : tryStrategy S.regexScrape s0 = []
          · have herr : parse_xml_string S input = Except.error ParseErr.allStrategiesFailed := by
              rw [heval]
              simp [h1, h2, h3, h4]
            refine ⟨?_, hang, ?_⟩
            · constructor
              · intro _ s hs
                cases hs
                exact ⟨h1, h2, h3, h4⟩
              · intro _
                exact ⟨ParseErr.allStrategiesFailed, herr⟩
            · intro s hs hne
              cases hs
              rcases hne with hne | hne | hne | hne
              · exact absurd h1 hne
              · exact absurd h2 hne
              · exact absurd h3 hne
              · exact absurd h4 hne
          · have hok : parse_xml_string S input =
                Except.ok (tryStrategy S.regexScrape s0) := by
              rw [heval]
              simp [h1, h2, h3, h4]
            refine ⟨?_, hang, ?_⟩
            · constructor
              · rintro ⟨e, he⟩
                rw [hok] at he
                cases he
              · intro hall
                exact absurd (hall s0 rfl).2.2.2 h4
            · intro s hs _
              exact ⟨_, hok, h4⟩
        · have hok : parse_xml_string S input =
              Except.ok (tryStrategy S.genericMinidom s0) := by
            rw [heval]
            simp [h1, h2, h3]
          refine ⟨?_, hang, ?_⟩
          · constructor
            · rintro ⟨e, he⟩
              rw [hok] at he
              cases he
            · intro hall
              exact absurd (hall s0 rfl).2.2.1 h3
          · intro s hs _
            exact ⟨_, hok, h3⟩
      · have hok : parse_xml_string S input =
            Except.ok (tryStrategy S.changedFilesFormat s0) := by
          rw [heval]
          simp [h1, h2]
        refine ⟨?_, hang, ?_⟩
        · constructor
          · rintro ⟨e, he⟩
            rw [hok] at he
            cases he
          · intro hall
            exact absurd (hall s0 rfl).2.1 h2
        · intro s hs _
          exact ⟨_, hok, h2⟩
    · have hok : parse_xml_string S input =
          Except.ok (tryStrategy S.codeChangesFormat s0) := by
        rw [heval]
        simp [h1]
      refine ⟨?_, hang, ?_⟩
      · constructor
        · rintro ⟨e, he⟩
          rw [hok] at he
          cases he
        · intro hall
          exact absurd (hall s0 rfl).1 h1
      · intro s hs _
        exact ⟨_, hok, h1⟩

/-- Witness for C4: with a strategy producing one valid change on a plain
rooted input, extraction returns a non-empty list; and the no-angle-bracket
input raises. -/
theorem c4_extract_failure_semantics_witness :
    (∃ cs, parse_xml_string c4Strategies (("<a>x</a>").toList) = Except.ok cs ∧ cs ≠ []) ∧
      (∃ e, parse_xml_string c4Strategies (("hello").toList) = Except.error e) :=
  ⟨(c4_extract_failure_semantics c4Strategies (("<a>x</a>").toList)).2.2
      (("<a>x</a>").toList) (by rfl) (Or.inl (by decide)),
   (c4_extract_failure_semantics c4Strategies (("hello").toList)).2.1 (by decide)⟩

end RepoTools
